import Mathlib

/-!
Verification development for the markup fragment extraction engine of this
repository (the class EcommerceContentFilter in
src/util/ecommerce_content_filter.py, and the constructor of
UniversalProductFilter in src/util/universal_content_filter.py).

The element tree produced by the lenient HTML parser is embedded as the
mutual inductive type Node / NodeList below.  Every helper of the Python
class is translated into an executable Lean function over that tree:

  - get_text(" ", strip=True)        -> getText
  - str(node) / encode_contents()    -> serializeNode / encodeContents
  - _PRICE_RE search                 -> priceSearch
  - _PRICE_ATTR_RE search            -> priceAttrSearch
  - _NEG_CLASS_ID_RE search          -> negClassIdSearch
  - _NEG_TEXT_RE search              -> negTextSearch
  - _looks_like_price                -> looksLikePrice
  - _is_promo                        -> isPromo
  - _query_sim                       -> querySim
  - _score                           -> scoreNode
  - _crop_to_price_card              -> cropClimb / cropToPriceCard
  - _node_source_range               -> nodeSourceRange
  - _covered_by_accepted             -> coveredByAccepted
  - filter_content                   -> filterTree / filterContent

Modelling conventions.
Machine floats of the Python code are modelled by exact rationals; the
weights 2.5, 1.0, 0.6, 0.3 and the tag table entries are written as the
corresponding rationals.  Byte lengths of encode_contents coincide with
character counts on the ASCII inputs considered here, so lengths are
character counts.  Python object identity of tree nodes is modelled by the
eid field carried by every element; destructive mutation (decompose) is
modelled by threading the updated tree through the selection loop, and a
stale reference to a decomposed node is modelled by an eid that is no
longer present in the tree.  Attribute values are stored as plain strings;
the multi valued class attribute is stored already space joined, which is
how every use site of the Python code consumes it.  Accessing a Python
instance attribute that __init__ never assigned raises AttributeError;
the attributes user_query and keep_top_n are therefore Option valued in
the configuration, and reading a missing one yields PyErr.attributeError.
HTML comments and the non content subtrees (script, style, noscript,
svg, iframe, form) are decomposed by filter_content before any other
processing, and lxml resolves missing body containers; the parser and
that strip pass are external to the functions modelled here, so the body
trees below stand for the document after both, and filterContent takes
the parser as an explicit parameter.  Line counting follows splitlines on
texts whose only line break character is the newline.
-/

deriving instance DecidableEq for Except

namespace Ecom


/-- Errors a run of the Python code can raise in the fragments we model:
reading an instance attribute that was never assigned. -/
inductive PyErr where
  | attributeError
deriving Repr, DecidableEq

/-- Whitespace characters recognised by the str.strip / str.split defaults
of Python on the ASCII inputs considered here. -/
def isWs (c : Char) : Bool :=
  c == ' ' || c == '\t' || c == '\n' || c == '\r' || c == '\x0b' || c == '\x0c'

/-- Lower casing of one ASCII character, as str.lower and re.I use it. -/
def lcChar (c : Char) : Char :=
  if 'A' ≤ c ∧ c ≤ 'Z' then Char.ofNat (c.toNat + 32) else c

/-- Lower casing of a character list. -/
def lcList (l : List Char) : List Char := l.map lcChar

/-- Word characters of the regex class backslash w restricted to ASCII. -/
def isWordChar (c : Char) : Bool :=
  ('a' ≤ c && c ≤ 'z') || ('A' ≤ c && c ≤ 'Z') || ('0' ≤ c && c ≤ '9') || c == '_'

/-- Digit test for the regex class backslash d. -/
def isDigitCh (c : Char) : Bool := '0' ≤ c && c ≤ '9'

/-- Python str.strip: drop whitespace from both ends. -/
def trimChars (l : List Char) : List Char :=
  ((l.dropWhile isWs).reverse.dropWhile isWs).reverse

/-- Helper of splitWs carrying the reversed current word. -/
def splitWsAux : List Char → List Char → List (List Char)
  | acc, [] => if acc = [] then [] else [acc.reverse]
  | acc, c :: rest =>
    if isWs c then
      if acc = [] then splitWsAux [] rest else acc.reverse :: splitWsAux [] rest
    else splitWsAux (c :: acc) rest

/-- Python str.split() with no argument: split on whitespace runs and drop
empty pieces. -/
def splitWs (l : List Char) : List (List Char) := splitWsAux [] l

/-- Joining a list of character lists with a separator, as str.join. -/
def joinSep (sep : List Char) : List (List Char) → List Char
  | [] => []
  | [w] => w
  | w :: ws => w ++ sep ++ joinSep sep ws

/-- Number of lines str.splitlines reports on text whose only line break
character is the newline: newline count, plus one when the text is
nonempty and does not end in a newline. -/
def lineCount (l : List Char) : Nat :=
  (l.filter (fun c => c = '\n')).length +
    (if l = [] then 0 else if l.getLast? = some '\n' then 0 else 1)

/-- Literal match of a needle at the head of the haystack. -/
def litAt : List Char → List Char → Bool
  | [], _ => true
  | _ :: _, [] => false
  | c :: ns, d :: hs => c == d && litAt ns hs

/-- Substring search: the needle occurs somewhere in the haystack. -/
def containsSub (needle : List Char) : List Char → Bool
  | [] => litAt needle []
  | c :: rest => litAt needle (c :: rest) || containsSub needle rest

/-- Search for an alternation of literal words, as re.search of a pattern
word1 or word2 or ... does: some alternative matches at some position. -/
def reSearchLits (lits : List (List Char)) : List Char → Bool
  | [] => lits.any (fun l => litAt l [])
  | c :: rest => lits.any (fun l => litAt l (c :: rest)) || reSearchLits lits rest

/-- Negative lookahead of the regex: true when the next character, if any,
is not a word character. -/
def notWordNext : List Char → Bool
  | [] => true
  | c :: _ => ! isWordChar c

/-- Model of the _PRICE_RE fragment after the first digit: one split of the
greedy class star, the optional cents group, and the trailing lookahead.
Each call point either stops the star here (the optional group empty or
matching a separator and two digits, then the lookahead) or consumes one
more character of the class digit dot comma. -/
def priceTail : List Char → Bool
  | [] => true
  | c :: rest =>
    notWordNext (c :: rest) ||
      (match c :: rest with
        | p :: d1 :: d2 :: r2 =>
          (p == '.' || p == ',') && isDigitCh d1 && isDigitCh d2 && notWordNext r2
        | _ => false) ||
      ((isDigitCh c || c == '.' || c == ',') && priceTail rest)

/-- Currency alternative of _PRICE_RE on lower cased text: a currency sign
or one of the ISO codes usd cad eur gbp. -/
def currencyStrip : List Char → Option (List Char)
  | '$' :: r => some r
  | '€' :: r => some r
  | '£' :: r => some r
  | 'u' :: 's' :: 'd' :: r => some r
  | 'c' :: 'a' :: 'd' :: r => some r
  | 'e' :: 'u' :: 'r' :: r => some r
  | 'g' :: 'b' :: 'p' :: r => some r
  | _ => none

/-- Attempt of _PRICE_RE at one position of the lower cased text, the
lookbehind already checked by the caller: currency, optional whitespace,
a digit, then priceTail. -/
def priceFrom (l : List Char) : Bool :=
  match currencyStrip l with
  | none => false
  | some r =>
    match r.dropWhile isWs with
    | [] => false
    | d :: r2 => isDigitCh d && priceTail r2

/-- Lookbehind of _PRICE_RE on lower cased text: the previous character,
if any, is not a lower case letter or digit. -/
def priceBoundary : Option Char → Bool
  | none => true
  | some c => ! (('a' ≤ c && c ≤ 'z') || isDigitCh c)

/-- Position scan of _PRICE_RE over lower cased text. -/
def priceSearchAux : Option Char → List Char → Bool
  | prev, l =>
    (priceBoundary prev && priceFrom l) ||
      (match l with
        | [] => false
        | c :: rest => priceSearchAux (some c) rest)

/-- Model of _PRICE_RE.search over a text, the case insensitivity of re.I
realised by lower casing the text and the pattern literals. -/
def priceSearch (s : String) : Bool := priceSearchAux none (lcList s.data)

/-- Alternatives of _PRICE_ATTR_RE, a plain substring alternation. -/
def priceAttrLits : List (List Char) :=
  ["price".data, "amount".data, "cost".data, "value".data]

/-- Model of _PRICE_ATTR_RE.search over an attribute value. -/
def priceAttrSearch (s : String) : Bool :=
  reSearchLits priceAttrLits (lcList s.data)

/-- Alternatives of _NEG_CLASS_ID_RE.  The branch ads? of the source regex
is the alternation of ad and ads, written out here; every alternative is a
plain literal searched anywhere in the text. -/
def negClassIdLits : List (List Char) :=
  ["nav".data, "footer".data, "header".data, "sidebar".data, "ad".data,
    "ads".data, "banner".data, "coupon".data, "newsletter".data,
    "promo".data, "upsell".data, "social".data, "share".data, "review".data,
    "shipping".data, "clearance".data]

/-- Model of _NEG_CLASS_ID_RE.search over the class and id text. -/
def negClassIdSearch (s : String) : Bool :=
  reSearchLits negClassIdLits (lcList s.data)

/-- Literal alternative of _NEG_TEXT_RE followed by the closing word
boundary: every alternative ends in a word character, so the boundary
holds exactly when the next character is not a word character. -/
def litThenBound : List Char → List Char → Bool
  | [], rest => notWordNext rest
  | _ :: _, [] => false
  | c :: ns, d :: hs => c == d && litThenBound ns hs

/-- Alternative save backslash d of _NEG_TEXT_RE with its closing word
boundary after the digit. -/
def saveDigit : List Char → Bool
  | 's' :: 'a' :: 'v' :: 'e' :: ' ' :: d :: rest => isDigitCh d && notWordNext rest
  | _ => false

/-- One position attempt of _NEG_TEXT_RE on lower cased text. -/
def negTextFrom (l : List Char) : Bool :=
  litThenBound "sale".data l || litThenBound "discount".data l ||
    litThenBound "percent off".data l || saveDigit l ||
    litThenBound "free shipping".data l

/-- Position scan of _NEG_TEXT_RE: the opening word boundary holds exactly
when the previous character is not a word character, since every
alternative starts with a word character. -/
def negTextAux : Option Char → List Char → Bool
  | prev, l =>
    ((match prev with | none => true | some c => ! isWordChar c) && negTextFrom l) ||
      (match l with
        | [] => false
        | c :: rest => negTextAux (some c) rest)

/-- Model of _NEG_TEXT_RE.search over a text. -/
def negTextSearch (s : String) : Bool := negTextAux none (lcList s.data)

mutual
/-- Parsed element tree.  An element carries the identity eid standing for
Python object identity, its tag name, the attribute mapping in document
order, the sourceline the parser assigned, and its children; the other
constructor is a navigable string. -/
inductive Node where
  | elem (eid : Nat) (tag : String) (attrs : List (String × String))
      (sl : Nat) (children : NodeList)
  | text (s : String)
deriving Repr, DecidableEq
/-- Children lists of the tree, kept as a mutual inductive so that every
traversal below is plain structural recursion. -/
inductive NodeList where
  | nil
  | cons (head : Node) (tail : NodeList)
deriving Repr, DecidableEq
end

/-- Tag name of a node; navigable strings have none. -/
def tagOf : Node → String
  | .elem _ t _ _ _ => t
  | .text _ => ""

/-- Identity of a node, 0 on navigable strings (never looked up). -/
def eidOf : Node → Nat
  | .elem e _ _ _ _ => e
  | .text _ => 0

/-- Sourceline of a node, as node.sourceline or 0 of the source. -/
def slOf : Node → Nat
  | .elem _ _ _ s _ => s
  | .text _ => 0

/-- Attribute list of a node. -/
def attrsOf : Node → List (String × String)
  | .elem _ _ a _ _ => a
  | .text _ => []

/-- Lookup of one attribute, as node.get(name) of the source: none when
the attribute is absent. -/
def getAttr (n : Node) (name : String) : Option String :=
  (attrsOf n).lookup name

mutual
/-- Descendant navigable strings of a node in document order. -/
def getTexts : Node → List (List Char)
  | .text s => [s.data]
  | .elem _ _ _ _ cs => getTextsL cs
/-- Descendant navigable strings of a children list. -/
def getTextsL : NodeList → List (List Char)
  | .nil => []
  | .cons h t => getTexts h ++ getTextsL t
end

/-- Model of node.get_text(" ", strip=True): every descendant string is
stripped, empty pieces are dropped, and the rest joined by one space. -/
def getTextC (n : Node) : List Char :=
  joinSep [' '] (((getTexts n).map trimChars).filter (fun w => w ≠ []))

/-- String form of getTextC. -/
def getText (n : Node) : String := ⟨getTextC n⟩

/-- HTML escaping of text content as the serializer of the source applies
it: ampersand, less than and greater than become entities. -/
def escText : List Char → List Char
  | [] => []
  | '&' :: r => "&amp;".data ++ escText r
  | '<' :: r => "&lt;".data ++ escText r
  | '>' :: r => "&gt;".data ++ escText r
  | c :: r => c :: escText r

/-- HTML escaping inside double quoted attribute values: the text escapes
plus the double quote. -/
def escAttr : List Char → List Char
  | [] => []
  | '&' :: r => "&amp;".data ++ escAttr r
  | '<' :: r => "&lt;".data ++ escAttr r
  | '>' :: r => "&gt;".data ++ escAttr r
  | '"' :: r => "&quot;".data ++ escAttr r
  | c :: r => c :: escAttr r

/-- Serialized attribute list, each entry as space name equals quoted
value, in stored order. -/
def serAttrs : List (String × String) → List Char
  | [] => []
  | (k, v) :: r => ' ' :: k.data ++ '=' :: '"' :: (escAttr v.data ++ '"' :: serAttrs r)

mutual
/-- Model of str(node): the serialized markup of the subtree. -/
def serializeNode : Node → List Char
  | .text s => escText s.data
  | .elem _ t a _ cs =>
    '<' :: (t.data ++ serAttrs a ++ '>' :: (serializeL cs ++ '<' :: '/' :: (t.data ++ ['>'])))
/-- Serialized form of a children list. -/
def serializeL : NodeList → List Char
  | .nil => []
  | .cons h tl => serializeNode h ++ serializeL tl
end

/-- String form of serializeNode. -/
def strOf (n : Node) : String := ⟨serializeNode n⟩

/-- Model of node.encode_contents(): the serialized children only.  On the
ASCII trees considered here the byte length equals the character count. -/
def encodeContents : Node → List Char
  | .text _ => []
  | .elem _ _ _ _ cs => serializeL cs

/-- Attribute names _looks_like_price inspects, in source order. -/
def priceAttrNames : List String :=
  ["class", "id", "itemprop", "data-price", "aria-label"]

/-- Model of _looks_like_price: the text matches the price regex, or some
inspected attribute is present, nonempty, and matches the price attribute
regex. -/
def looksLikePrice (text : String) (n : Node) : Bool :=
  priceSearch text ||
    priceAttrNames.any (fun a =>
      match getAttr n a with
      | none => false
      | some v => ! v.isEmpty && priceAttrSearch v)

/-- Identity text of _is_promo: the space joined nonempty pieces among the
class value and the id value. -/
def classIdOf (n : Node) : String :=
  ⟨joinSep [' ']
    (([((getAttr n "class").getD "").data,
       ((getAttr n "id").getD "").data]).filter (fun w => w ≠ []))⟩

/-- Model of _is_promo: the class and id text matches the negative class
and id regex, or the first 120 characters of the normalized text match the
negative text regex. -/
def isPromo (n : Node) : Bool :=
  negClassIdSearch (classIdOf n) || negTextSearch ⟨(getTextC n).take 120⟩

/-- Exact rational scores.  Python computes scores in machine floats; the
weights and tag constants are decimal fractions and every term here is an
exact ratio, so the model uses exact fraction arithmetic: a numerator, a
positive denominator, and value comparison by cross multiplication.  The
representation is kept unnormalized so that every operation is plain
integer arithmetic. -/
structure Q where
  num : Int
  den : Nat
  dpos : 0 < den

instance : DecidableEq Q := fun a b =>
  if h : a.num = b.num ∧ a.den = b.den then
    .isTrue (by cases a; cases b; cases h.1; cases h.2; rfl)
  else .isFalse (by intro e; cases e; exact h ⟨rfl, rfl⟩)

instance : Repr Q := ⟨fun q _ => repr (q.num, q.den)⟩

/-- Fraction with an explicitly positive denominator. -/
def Q.ratio (a : Nat) (b : Nat) (h : 0 < b) : Q := ⟨a, b, h⟩

/-- Integer as a fraction. -/
def Q.ofInt (n : Int) : Q := ⟨n, 1, by decide⟩

/-- Decimal fraction n over 10, for the weights and the tag table. -/
def Q.ofTenths (n : Int) : Q := ⟨n, 10, by decide⟩

/-- Addition of fractions. -/
def Q.add (a b : Q) : Q :=
  ⟨a.num * b.den + b.num * a.den, a.den * b.den, Nat.mul_pos a.dpos b.dpos⟩

/-- Multiplication of fractions. -/
def Q.mul (a b : Q) : Q := ⟨a.num * b.num, a.den * b.den, Nat.mul_pos a.dpos b.dpos⟩

/-- Value comparison of fractions by cross multiplication. -/
def Q.blt (a b : Q) : Bool := decide (a.num * (b.den : Int) < b.num * (a.den : Int))

/-- Value equality of fractions by cross multiplication. -/
def Q.beq (a b : Q) : Bool := decide (a.num * (b.den : Int) = b.num * (a.den : Int))

/-- Rational value of a fraction. -/
def Q.toRat (q : Q) : ℚ := (q.num : ℚ) / (q.den : ℚ)

/-- Scoring weight W_PRICE = 2.5 of the constructor. -/
def wPRICE : Q := Q.ofTenths 25

/-- Scoring weight W_QUERY = 1.0 of the constructor. -/
def wQUERY : Q := Q.ofTenths 10

/-- Scoring weight W_DENS = 0.6 of the constructor. -/
def wDENS : Q := Q.ofTenths 6

/-- Scoring weight W_TAG = 0.3 of the constructor. -/
def wTAG : Q := Q.ofTenths 3

/-- Base usefulness table TAG_W of the constructor. -/
def tagWTable : List (String × Q) :=
  [("h1", Q.ofTenths 14), ("h2", Q.ofTenths 13), ("h3", Q.ofTenths 12),
   ("p", Q.ofTenths 11), ("li", Q.ofTenths 10),
   ("article", Q.ofTenths 15), ("section", Q.ofTenths 13),
   ("div", Q.ofTenths 6), ("span", Q.ofTenths 3)]

/-- Lookup TAG_W.get(name, 0.5). -/
def tagWeight (t : String) : Q := (tagWTable.lookup t).getD (Q.ofTenths 5)

/-- Membership test name in TAG_W of the candidate walk. -/
def tagMem (t : String) : Bool := (tagWTable.lookup t).isSome

/-- Model of _query_sim.  A missing user_query attribute raises
AttributeError; an empty one is falsy and yields 0; otherwise the result
is the number of distinct query tokens that occur among the lower cased
text tokens, divided by the number of distinct query tokens. -/
def querySim (uq : Option String) (text : String) : Except PyErr Q :=
  match uq with
  | none => .error .attributeError
  | some q =>
    if q = "" then .ok (Q.ofInt 0)
    else
      let qtok := (splitWs q.data).dedup
      if h : qtok = [] then .ok (Q.ofInt 0)
      else
        .ok (Q.ratio (qtok.filter (fun w => w ∈ splitWs (lcList text.data))).length
          qtok.length (List.length_pos.mpr h))

/-- Model of _score: weighted sum of the price indicator, the query
similarity, the text density over the serialized contents, and the tag
weight.  The density guard of the source returns 0 on empty contents. -/
def scoreNode (uq : Option String) (n : Node) (text : String) : Except PyErr Q :=
  let hasPrice := looksLikePrice text n
  let tagLen := (encodeContents n).length
  let dens : Q :=
    if h : tagLen = 0 then Q.ofInt 0
    else Q.ratio text.length tagLen (Nat.pos_of_ne_zero h)
  match querySim uq text with
  | .error e => .error e
  | .ok sim =>
    .ok ((((wPRICE.mul (Q.ofInt (if hasPrice then 1 else 0))).add
        (wQUERY.mul sim)).add
      (wDENS.mul dens)).add (wTAG.mul (tagWeight (tagOf n))))

/-- Instance state of EcommerceContentFilter.  The attributes user_query
and keep_top_n are Option valued because __init__ never assigns them;
none models a missing attribute whose read raises AttributeError. -/
structure Config where
  retention_threshold : ℚ
  max_chars : Nat
  min_word_threshold : Nat
  verbose : Bool
  user_query : Option String
  keep_top_n : Option Nat
deriving Repr, DecidableEq

/-- Model of __init__ with its three parameters: max_chars is fixed at
800, and neither user_query nor keep_top_n is assigned.  The Python
defaults are retention_threshold 0.3, min_word_threshold 2, verbose
false. -/
def initFilter (retention_threshold : ℚ) (min_word_threshold : Nat)
    (verbose : Bool) : Config :=
  Config.mk retention_threshold 800 min_word_threshold verbose none none

/-- Word count len(text.split()) of the candidate walk. -/
def wordCount (text : String) : Nat := (splitWs text.data).length

/-- Eligibility test of the candidate walk of filter_content: the tag is in
TAG_W, the node is not a promo wrapper, its normalized text is nonempty,
and the text is price like or has at least min_word_threshold words. -/
def eligible (cfg : Config) (n : Node) : Bool :=
  match n with
  | .text _ => false
  | .elem _ t _ _ _ =>
    tagMem t && ! isPromo n && ! (getTextC n).isEmpty &&
      (looksLikePrice (getText n) n ||
        decide (cfg.min_word_threshold ≤ wordCount (getText n)))

/-- Scored candidate: discovery order, score, node identity. -/
structure Cand where
  ord : Nat
  score : Q
  eid : Nat
deriving Repr, DecidableEq

mutual
/-- Candidate collection over one node of the walk of filter_content, in
document preorder, threading the discovery order counter; eligible nodes
are scored, and scoring propagates AttributeError when user_query is
missing. -/
def collectN (cfg : Config) : Node → Nat → Except PyErr (List Cand × Nat)
  | .text _, o => .ok ([], o)
  | n@(.elem e _ _ _ cs), o =>
    if eligible cfg n then
      match scoreNode cfg.user_query n (getText n) with
      | .error pe => .error pe
      | .ok sc =>
        match collectL cfg cs (o + 1) with
        | .error pe => .error pe
        | .ok (cands, o2) => .ok (⟨o, sc, e⟩ :: cands, o2)
    else collectL cfg cs o
/-- Candidate collection over a children list. -/
def collectL (cfg : Config) : NodeList → Nat → Except PyErr (List Cand × Nat)
  | .nil, o => .ok ([], o)
  | .cons h tl, o =>
    match collectN cfg h o with
    | .error pe => .error pe
    | .ok (c1, o1) =>
      match collectL cfg tl o1 with
      | .error pe => .error pe
      | .ok (c2, o2) => .ok (c1 ++ c2, o2)
end

/-- Candidate collection over the descendants of the body, the body itself
excluded as in soup.body.descendants. -/
def collect (cfg : Config) (body : Node) : Except PyErr (List Cand) :=
  match body with
  | .elem _ _ _ _ cs =>
    match collectL cfg cs 0 with
    | .error pe => .error pe
    | .ok (cands, _) => .ok cands
  | .text _ => .ok []

mutual
/-- First preorder occurrence of the element with the given identity,
together with its ancestor chain inside this subtree, nearest ancestor
first.  This models holding a live reference to a parsed element: the
reference carries its parent links, and a decomposed element is one that
no longer occurs in the tree. -/
def chainTo (i : Nat) : Node → Option (Node × List Node)
  | .text _ => none
  | n@(.elem e _ _ _ cs) =>
    if e = i then some (n, [])
    else
      match chainToL i cs with
      | none => none
      | some (t, anc) => some (t, anc ++ [n])
/-- Chain search over a children list. -/
def chainToL (i : Nat) : NodeList → Option (Node × List Node)
  | .nil => none
  | .cons h tl =>
    match chainTo i h with
    | some r => some r
    | none => chainToL i tl
end

/-- First preorder occurrence of the element with the given identity. -/
def findById (i : Nat) (t : Node) : Option Node :=
  (chainTo i t).map (fun r => r.1)

mutual
/-- Replacement of the first preorder occurrence of the element with the
given identity by a new subtree, modelling in place mutation of the shared
tree. -/
def replaceById (i : Nat) (new : Node) : Node → Node
  | .text s => .text s
  | .elem e t a sl cs =>
    if e = i then new else .elem e t a sl (replaceByIdL i new cs)
/-- Replacement over a children list: only the first occurrence changes. -/
def replaceByIdL (i : Nat) (new : Node) : NodeList → NodeList
  | .nil => .nil
  | .cons h tl =>
    if (findById i h).isSome then .cons (replaceById i new h) tl
    else .cons h (replaceByIdL i new tl)
end

mutual
/-- Identities of all elements of a subtree, the root included. -/
def elemIds : Node → List Nat
  | .text _ => []
  | .elem e _ _ _ cs => e :: elemIdsL cs
/-- Identities over a children list. -/
def elemIdsL : NodeList → List Nat
  | .nil => []
  | .cons h tl => elemIds h ++ elemIdsL tl
end

mutual
/-- All elements of a subtree, the root included, in document preorder:
the nodes soup.body.descendants yields, plus the root. -/
def allElems : Node → List Node
  | .text _ => []
  | n@(.elem _ _ _ _ cs) => n :: allElemsL cs
/-- Elements over a children list. -/
def allElemsL : NodeList → List Node
  | .nil => []
  | .cons h tl => allElems h ++ allElemsL tl
end

mutual
/-- Promo pruning of _crop_to_price_card: every descendant element that
_is_promo accepts is decomposed together with its subtree; the check on
each surviving element sees its original subtree, since the snapshot of
current.descendants lists a container before its contents and decomposed
elements are skipped.  The root itself is never removed. -/
def prunePromo : Node → Node
  | .text s => .text s
  | .elem e t a sl cs => .elem e t a sl (prunePromoL cs)
/-- Pruning over a children list. -/
def prunePromoL : NodeList → NodeList
  | .nil => .nil
  | .cons h tl =>
    match h with
    | .text s => .cons (.text s) (prunePromoL tl)
    | .elem _ _ _ _ _ =>
      if isPromo h then prunePromoL tl
      else .cons (prunePromo h) (prunePromoL tl)
end

/-- Climb loop of _crop_to_price_card over the ancestor chain, nearest
first: while the parent exists and is not the body, its normalized text is
within max_chars, and it still looks price like, move up; otherwise stop
and keep the current node. -/
def cropClimb (maxChars : Nat) : Node → List Node → Node
  | cur, [] => cur
  | cur, p :: rest =>
    if tagOf p = "body" then cur
    else if maxChars < (getText p).length then cur
    else if ! looksLikePrice (getText p) p then cur
    else cropClimb maxChars p rest

/-- Model of _crop_to_price_card acting on the shared tree: locate the
candidate by identity, climb, prune promo descendants in place, and return
the pruned block together with the updated tree. -/
def cropToPriceCard (maxChars : Nat) (tree : Node) (i : Nat) :
    Option (Node × Node) :=
  match chainTo i tree with
  | none => none
  | some (node, anc) =>
    let block := cropClimb maxChars node anc
    let card := prunePromo block
    some (card, replaceById (eidOf block) card tree)

/-- Model of _node_source_range: the sourceline, and the sourceline plus
the line count of the serialized subtree. -/
def nodeSourceRange (n : Node) : Nat × Nat :=
  (slOf n, slOf n + lineCount (serializeNode n))

/-- Containment test of _covered_by_accepted on two ranges. -/
def containsRange (a b : Nat × Nat) : Bool :=
  decide (a.1 ≤ b.1) && decide (b.2 ≤ a.2)

/-- Model of _covered_by_accepted: the source range of the node lies fully
inside some recorded range. -/
def coveredByAccepted (n : Node) (ranges : List (Nat × Nat)) : Bool :=
  ranges.any (fun r => containsRange r (nodeSourceRange n))

/-- Acceptance record of one selected candidate: the identity of the kept
block, the source range of the candidate node at acceptance time, and the
recorded source range of the compacted block. -/
structure AcceptEntry where
  eid : Nat
  nodeRange : Nat × Nat
  blockRange : Nat × Nat
deriving Repr, DecidableEq

/-- State of the selection loop: the shared tree, which crops mutate, and
the acceptance records in order. -/
structure SelSt where
  tree : Node
  accepted : List AcceptEntry
deriving Repr, DecidableEq

/-- Selection loop of filter_content over the sorted candidates.  A
candidate whose element was decomposed by an earlier crop is skipped (the
attrs is None guard); the loop stops once keep_top_n blocks are accepted;
a candidate covered by an already recorded range is skipped; otherwise the
candidate is cropped, its pruned block recorded, and the tree updated.
Reading a missing keep_top_n attribute raises AttributeError. -/
def selLoop (cfg : Config) : List Cand → SelSt → Except PyErr SelSt
  | [], st => .ok st
  | c :: rest, st =>
    match chainTo c.eid st.tree with
    | none => selLoop cfg rest st
    | some (node, anc) =>
      match cfg.keep_top_n with
      | none => .error .attributeError
      | some k =>
        if k ≤ st.accepted.length then .ok st
        else if coveredByAccepted node (st.accepted.map AcceptEntry.blockRange) then
          selLoop cfg rest st
        else
          let block := cropClimb cfg.max_chars node anc
          let card := prunePromo block
          selLoop cfg rest
            ⟨replaceById (eidOf block) card st.tree,
              st.accepted ++ [⟨eidOf block, nodeSourceRange node, nodeSourceRange card⟩]⟩

/-- Exact string deduplication of filter_content: keep a string only when
it was not seen before, the first occurrence winning. -/
def dedupFirst (seen : List String) : List String → List String
  | [] => []
  | h :: t => if h ∈ seen then dedupFirst seen t else h :: dedupFirst (h :: seen) t

/-- Lookup of every accepted block in the final tree.  The source holds
live references and reads node.sourceline and str(node) on them; a
reference decomposed by a later crop has lost its attributes, which raises
AttributeError. -/
def lookupAll (t : Node) : List AcceptEntry → Except PyErr (List Node)
  | [] => .ok []
  | e :: rest =>
    match findById e.eid t with
    | none => .error .attributeError
    | some n =>
      match lookupAll t rest with
      | .error pe => .error pe
      | .ok ns => .ok (n :: ns)

/-- Stable comparison of the candidate sort, the Python key being the pair
of negated score and discovery order in ascending order: higher scores
first, document order breaking ties. -/
def candLE (a b : Cand) : Prop :=
  Q.blt b.score a.score = true ∨ (Q.beq a.score b.score = true ∧ a.ord ≤ b.ord)

instance : DecidableRel candLE := fun a b => by
  unfold candLE; exact inferInstance

/-- Stable comparison of the final reorder by sourceline. -/
def nodeLE (a b : Node) : Prop := slOf a ≤ slOf b

instance : DecidableRel nodeLE := fun a b => by
  unfold nodeLE; exact inferInstance

/-- Outcome of one run of filter_content after parsing: the acceptance
records, the final state of the shared tree, and the returned fragment
strings. -/
structure RunOut where
  entries : List AcceptEntry
  finalTree : Node
  result : List String
deriving Repr, DecidableEq

/-- Model of filter_content on an already parsed body: collect and score
the candidates, return early when none, sort by descending score with
document order breaking ties, run the greedy selection, reorder the
accepted blocks by sourceline, serialize, and drop exact duplicate
strings. -/
def filterTree (cfg : Config) (body : Node) : Except PyErr RunOut :=
  match collect cfg body with
  | .error pe => .error pe
  | .ok cands =>
    if cands.isEmpty then .ok ⟨[], body, []⟩
    else
      match selLoop cfg (List.insertionSort candLE cands) ⟨body, []⟩ with
      | .error pe => .error pe
      | .ok st =>
        match lookupAll st.tree st.accepted with
        | .error pe => .error pe
        | .ok nodes =>
          .ok ⟨st.accepted, st.tree,
            dedupFirst [] ((List.insertionSort nodeLE nodes).map strOf)⟩

/-- Model of filter_content from the raw markup string: the empty string
is falsy and returns the empty list at once; otherwise the external
lenient parser, taken here as a parameter, produces the body tree. -/
def filterContent (cfg : Config) (parse : String → Node) (html : String) :
    Except PyErr (List String) :=
  if html = "" then .ok []
  else
    match filterTree cfg (parse html) with
    | .error pe => .error pe
    | .ok out => .ok out.result

/-- Configuration with the __init__ defaults after the two external
assignments the test suite performs: user_query set (here to the empty
string, which _query_sim treats as falsy) and keep_top_n set to 2. -/
def cfgStd : Config := Config.mk (3/10) 800 2 false (some "") (some 2)

/-- Price bearing span of the nesting counterexample. -/
def spanA : Node :=
  .elem 2 "span" [("class", "price")] 5 (.cons (.text "Widget Alpha") .nil)

/-- Containing div of the nesting counterexample, opening on line 1 of the
document: four newlines put the span on line 5, and the trailing text runs
to the closing tag on line 9. -/
def divB : Node :=
  .elem 1 "div" [] 1
    (.cons (.text "\n\n\n\n")
      (.cons spanA (.cons (.text "\nfiller words ok\n\n") .nil)))

/-- Body of the nesting counterexample. -/
def bodyC1 : Node := .elem 0 "body" [] 1 (.cons divB .nil)

/-- Modelled from the claim wording of the junk classifier, for comparison
with _is_promo: a structural signal from chrome tag names (navigation,
header, footer, complementary and sidebar regions) or a fixed negative
class and id vocabulary, or a textual signal from promotional or site
chrome phrasing in the first 120 characters of the normalized text. -/
def chromeTagsSpec : List String := ["nav", "header", "footer", "aside"]

/-- Modelled from the claim wording: the negative class and id vocabulary
the claim lists. -/
def negVocabSpec : List String :=
  ["navigation", "filter", "sort", "pagination", "newsletter", "social",
   "share", "breadcrumb", "promo", "upsell", "coupon", "banner",
   "advertisement", "review-list"]

/-- Modelled from the claim wording: the promotional and site chrome text
vocabulary the claim lists. -/
def promoVocabSpec : List String :=
  ["sale", "discount", "percent off", "free shipping", "home", "contact",
   "login", "account", "terms"]

/-- Modelled from the claim wording: the claimed junk classifier. -/
def isJunkSpec (n : Node) : Bool :=
  chromeTagsSpec.contains (tagOf n) ||
    negVocabSpec.any (fun w => containsSub w.data (lcList (classIdOf n).data)) ||
    promoVocabSpec.any (fun w => containsSub w.data (lcList ((getTextC n).take 120)))

/-- Modelled from the claim wording of the score, for comparison with
_query_sim: the fraction of distinct configured query tokens that occur in
the lower cased token set of the text, 0 when no query is configured. -/
def querySimSpec (uq : Option String) (text : String) : ℚ :=
  match uq with
  | none => 0
  | some q =>
    let qset := (splitWs q.data).toFinset
    let tset := (splitWs (lcList text.data)).toFinset
    ((qset ∩ tset).card : ℚ) / (qset.card : ℚ)

/-- Modelled from the claim wording of the score, for comparison with
_score: the same weighted sum with the density denominator read as the
length of the serialized element, its own tags included. -/
def scoreSpecOuter (uq : Option String) (n : Node) (text : String) : ℚ :=
  wPRICE.toRat * (if looksLikePrice text n then 1 else 0) +
    wQUERY.toRat * querySimSpec uq text +
    wDENS.toRat * ((text.length : ℚ) / (((strOf n).length : ℚ))) +
    wTAG.toRat * (tagWeight (tagOf n)).toRat

/-- Parameters of the constructor of UniversalProductFilter, with their
Python defaults 20, 75, 3500, 5, 0.90, false. -/
structure UPFParams where
  keep_top_n : Nat
  min_chars : Nat
  max_chars : Nat
  min_words : Nat
  similarity_threshold : ℚ
  verbose : Bool
deriving Repr, DecidableEq

/-- Constructed instance state of UniversalProductFilter. -/
structure UPF where
  params : UPFParams
deriving Repr, DecidableEq

/-- Model of UniversalProductFilter.__init__.  Importing the module either
loads the NLP models or records MODELS_AVAILABLE as false; the constructor
checks the flag first and raises RuntimeError before any tree work when
the models are unavailable. -/
def upfInit (models_available : Bool) (p : UPFParams) : Except String UPF :=
  if models_available = false then
    .error "NLP models are not available. Please install dependencies from requirements_nlp.txt"
  else .ok ⟨p⟩

/-- Parent identity of a node of the tree, through the chain the live
reference carries. -/
def parentEid (tree : Node) (i : Nat) : Option Nat :=
  match chainTo i tree with
  | some (_, p :: _) => some (eidOf p)
  | _ => none

/-- Candidates of a run, the empty list on an AttributeError. -/
def collectOk (cfg : Config) (body : Node) : List Cand :=
  match collect cfg body with
  | .error _ => []
  | .ok c => c

/-- Sorted candidate list the selection of filter_content processes. -/
def sortedCands (cfg : Config) (body : Node) : List Cand :=
  List.insertionSort candLE (collectOk cfg body)

/-- Acceptance records of a run, empty on an error. -/
def runEntries (cfg : Config) (body : Node) : List AcceptEntry :=
  match filterTree cfg body with
  | .error _ => []
  | .ok out => out.entries

/-- Accepted blocks of a run in final order, reordered by sourceline;
empty on an error. -/
def runNodes (cfg : Config) (body : Node) : List Node :=
  match filterTree cfg body with
  | .error _ => []
  | .ok out =>
    match lookupAll out.finalTree out.entries with
    | .error _ => []
    | .ok nodes => List.insertionSort nodeLE nodes

/-- Returned fragments of a run, empty on an error. -/
def runResult (cfg : Config) (body : Node) : List String :=
  match filterTree cfg body with
  | .error _ => []
  | .ok out => out.result

/-- Elements the walk of filter_content visits: every element below the
body, the body itself excluded. -/
def descendants : Node → List Node
  | .text _ => []
  | .elem _ _ _ _ cs => allElemsL cs

/-- Configuration with the retention ratio replaced and every other
attribute unchanged. -/
def setRet (cfg : Config) (q : ℚ) : Config :=
  Config.mk q cfg.max_chars cfg.min_word_threshold cfg.verbose
    cfg.user_query cfg.keep_top_n

/-- Loop condition of the climb of _crop_to_price_card: the parent is not
the body, its normalized text is within the size cap, and it still looks
price like. -/
def climbOk (maxChars : Nat) (p : Node) : Bool :=
  ! (tagOf p == "body") && ! decide (maxChars < (getText p).length) &&
    looksLikePrice (getText p) p

/-- Element of the junk classifier counterexample: a nav element whose
text is the site chrome word home. -/
def navHome : Node := .elem 3 "nav" [] 1 (.cons (.text "home") .nil)

/-- Element of the score counterexample: a heading with two characters of
text. -/
def h1ab : Node := .elem 7 "h1" [] 3 (.cons (.text "ab") .nil)

/-- Promo child of the compactor counterexample. -/
def promoP : Node :=
  .elem 2 "span" [("class", "ad-banner")] 1 (.cons (.text "Buy now") .nil)

/-- Price child of the compactor counterexample. -/
def priceS : Node :=
  .elem 3 "span" [("class", "price")] 1 (.cons (.text "$9") .nil)

/-- Candidate div of the compactor counterexample. -/
def divN : Node := .elem 1 "div" [] 1 (.cons promoP (.cons priceS .nil))

/-- Source tree of the compactor counterexample. -/
def treeC6 : Node := .elem 0 "body" [] 1 (.cons divN .nil)

/-- Pruned card the compactor returns on treeC6. -/
def cardC6 : Node := .elem 1 "div" [] 1 (.cons priceS .nil)

/-- Source tree after the compactor call: the promo child is gone. -/
def tree2C6 : Node := .elem 0 "body" [] 1 (.cons cardC6 .nil)

/-- Parse result of the malformed markup fragment with a price: the
lenient parser auto closes the paragraph. -/
def bodyMal : Node :=
  .elem 0 "body" [] 1 (.cons (.elem 1 "p" [] 1 (.cons (.text "$5") .nil)) .nil)

/-- External lenient parser stub of the malformed markup counterexample:
best effort recovery of the unclosed paragraph. -/
def parseMal : String → Node := fun _ => bodyMal

/-- Body with one short text paragraph and no price signal anywhere. -/
def bodyShort : Node :=
  .elem 0 "body" [] 1 (.cons (.elem 1 "p" [] 1 (.cons (.text "hi") .nil)) .nil)

/-- Candidate of the compactor size witness. -/
def nodeW : Node :=
  .elem 12 "span" [("class", "price")] 2 (.cons (.text "x") .nil)

/-- Parent of the compactor size witness: it holds the candidate and
filler text, its normalized text exactly 200 characters long. -/
def pW : Node :=
  .elem 11 "div" [] 1
    (.cons nodeW (.cons (.text (String.mk (List.replicate 198 'a'))) .nil))

/-- Body of the compactor size witness. -/
def treeW : Node := .elem 10 "body" [] 1 (.cons pW .nil)

/-- Cross multiplication comparison agrees with the rational order, the
denominators being positive. -/
theorem Q.blt_iff (a b : Q) : Q.blt a b = true ↔ a.toRat < b.toRat := by
  have ha : (0 : ℚ) < (a.den : ℚ) := by exact_mod_cast a.dpos
  have hb : (0 : ℚ) < (b.den : ℚ) := by exact_mod_cast b.dpos
  rw [Q.blt, decide_eq_true_iff, Q.toRat, Q.toRat, div_lt_div_iff₀ ha hb]
  constructor
  · intro h; exact_mod_cast h
  · intro h; exact_mod_cast h

/-- Cross multiplication equality agrees with rational equality, the
denominators being positive. -/
theorem Q.beq_iff (a b : Q) : Q.beq a b = true ↔ a.toRat = b.toRat := by
  have ha : ((a.den : ℚ)) ≠ 0 := by
    have : (0 : ℚ) < (a.den : ℚ) := by exact_mod_cast a.dpos
    exact ne_of_gt this
  have hb : ((b.den : ℚ)) ≠ 0 := by
    have : (0 : ℚ) < (b.den : ℚ) := by exact_mod_cast b.dpos
    exact ne_of_gt this
  rw [Q.beq, decide_eq_true_iff, Q.toRat, Q.toRat, div_eq_div_iff ha hb]
  constructor
  · intro h; exact_mod_cast h
  · intro h; exact_mod_cast h

/-- Rational value of a fraction sum. -/
theorem Q.toRat_add (a b : Q) : (a.add b).toRat = a.toRat + b.toRat := by
  have ha : ((a.den : ℚ)) ≠ 0 := by
    have : (0 : ℚ) < (a.den : ℚ) := by exact_mod_cast a.dpos
    exact ne_of_gt this
  have hb : ((b.den : ℚ)) ≠ 0 := by
    have : (0 : ℚ) < (b.den : ℚ) := by exact_mod_cast b.dpos
    exact ne_of_gt this
  rw [Q.toRat, Q.toRat, Q.toRat, Q.add, div_add_div _ _ ha hb]
  push_cast
  ring_nf

/-- Rational value of a fraction product. -/
theorem Q.toRat_mul (a b : Q) : (a.mul b).toRat = a.toRat * b.toRat := by
  rw [Q.toRat, Q.toRat, Q.toRat, Q.mul, div_mul_div_comm]
  push_cast
  ring_nf

/-- Rational value of Q.ratio. -/
theorem Q.toRat_ratio (a b : Nat) (h : 0 < b) :
    (Q.ratio a b h).toRat = (a : ℚ) / (b : ℚ) := by
  rw [Q.ratio, Q.toRat]
  norm_num

/-- Rational value of an embedded integer. -/
theorem Q.toRat_ofInt (n : Int) : (Q.ofInt n).toRat = (n : ℚ) := by
  rw [Q.ofInt, Q.toRat]
  norm_num

/-- Semantic reading of candLE over rational score values. -/
theorem candLE_iff (a b : Cand) :
    candLE a b ↔
      b.score.toRat < a.score.toRat ∨
        (a.score.toRat = b.score.toRat ∧ a.ord ≤ b.ord) := by
  rw [candLE, Q.blt_iff, Q.beq_iff]

instance : IsTotal Cand candLE :=
  ⟨fun a b => by
    rw [candLE_iff, candLE_iff]
    rcases lt_trichotomy a.score.toRat b.score.toRat with h | h | h
    · right; left; exact h
    · rcases Nat.le_total a.ord b.ord with ho | ho
      · left; right; exact ⟨h, ho⟩
      · right; right; exact ⟨h.symm, ho⟩
    · left; left; exact h⟩

instance : IsTrans Cand candLE :=
  ⟨fun a b c hab hbc => by
    rw [candLE_iff] at hab hbc ⊢
    rcases hab with h1 | ⟨e1, o1⟩
    · rcases hbc with h2 | ⟨e2, o2⟩
      · left; exact h2.trans h1
      · left; exact e2 ▸ h1
    · rcases hbc with h2 | ⟨e2, o2⟩
      · left; exact lt_of_lt_of_eq h2 e1.symm
      · right; exact ⟨e1.trans e2, o1.trans o2⟩⟩

instance : IsTotal Node nodeLE := ⟨fun a b => Nat.le_total (slOf a) (slOf b)⟩

instance : IsTrans Node nodeLE := ⟨fun _ _ _ h1 h2 => Nat.le_trans h1 h2⟩

/-- Decomposition of a successful run: either there were no candidates at
all, or the result state comes from the selection loop over the sorted
candidate list started on the shared body tree. -/
theorem filterTree_cases (cfg : Config) (body : Node) (out : RunOut)
    (h : filterTree cfg body = .ok out) :
    (out.entries = [] ∧ out.finalTree = body ∧ out.result = []) ∨
      ∃ cands st nodes, collect cfg body = .ok cands ∧
        selLoop cfg (List.insertionSort candLE cands) ⟨body, []⟩ = .ok st ∧
        lookupAll st.tree st.accepted = .ok nodes ∧
        out.entries = st.accepted ∧ out.finalTree = st.tree ∧
        out.result = dedupFirst [] ((List.insertionSort nodeLE nodes).map strOf) := by
  rw [filterTree] at h
  cases hcol : collect cfg body with
  | error pe => rw [hcol] at h; cases h
  | ok cands =>
    rw [hcol] at h
    replace h : (if cands.isEmpty = true then
        Except.ok (⟨[], body, []⟩ : RunOut)
      else
        match selLoop cfg (List.insertionSort candLE cands) ⟨body, []⟩ with
        | Except.error pe => Except.error pe
        | Except.ok st =>
          match lookupAll st.tree st.accepted with
          | Except.error pe => Except.error pe
          | Except.ok nodes =>
            Except.ok (⟨st.accepted, st.tree,
              dedupFirst [] ((List.insertionSort nodeLE nodes).map strOf)⟩ : RunOut)) =
      Except.ok out := h
    by_cases hemp : cands.isEmpty = true
    · rw [if_pos hemp] at h
      injection h with h2
      subst h2
      left
      exact ⟨rfl, rfl, rfl⟩
    · rw [if_neg hemp] at h
      cases hsel : selLoop cfg (List.insertionSort candLE cands) ⟨body, []⟩ with
      | error pe => rw [hsel] at h; cases h
      | ok st =>
        rw [hsel] at h
        replace h : (match lookupAll st.tree st.accepted with
          | Except.error pe => Except.error pe
          | Except.ok nodes =>
            Except.ok (⟨st.accepted, st.tree,
              dedupFirst [] ((List.insertionSort nodeLE nodes).map strOf)⟩ : RunOut)) =
          Except.ok out := h
        cases hlk : lookupAll st.tree st.accepted with
        | error pe => rw [hlk] at h; cases h
        | ok nodes =>
          rw [hlk] at h
          injection h with h2
          subst h2
          right
          exact ⟨cands, st, nodes, rfl, hsel, hlk, rfl, rfl, rfl⟩

/-- Disjunction distributes over any. -/
theorem any_or_distrib (l : List (List Char)) (p q : List Char → Bool) :
    l.any (fun x => p x || q x) = (l.any p || l.any q) := by
  induction l with
  | nil => simp
  | cons h t ih =>
    rw [List.any_cons, List.any_cons, List.any_cons, ih]
    cases hp : p h <;> cases hq : q h <;> simp

/-- Search of an alternation of literals finds a match exactly when some
alternative occurs as a substring. -/
theorem reSearchLits_eq_any (lits : List (List Char)) :
    ∀ (l : List Char), reSearchLits lits l = lits.any (fun w => containsSub w l)
  | [] => by
    rw [reSearchLits]
    congr 1
  | c :: rest => by
    have hfun : (fun w => containsSub w (c :: rest)) =
        fun w => litAt w (c :: rest) || containsSub w rest := by
      funext w
      rw [containsSub]
    rw [reSearchLits, reSearchLits_eq_any lits rest, hfun, any_or_distrib]

/-- Dedup does not change the token set. -/
theorem toFinset_dedup_eq (l : List (List Char)) :
    l.dedup.toFinset = l.toFinset := by
  ext w
  simp [List.mem_dedup]

/-- The similarity the source computes equals the claimed fraction over
the distinct token sets. -/
theorem querySim_toRat (q : String) (text : String) :
    (querySim (some q) text).map Q.toRat = .ok (querySimSpec (some q) text) := by
  rw [querySim, querySimSpec]
  by_cases hq : q = ""
  · subst hq
    rw [if_pos rfl]
    have h0 : splitWs ("" : String).data = [] := by decide
    rw [h0]
    show Except.ok ((Q.ofInt 0).toRat) = _
    rw [Q.toRat_ofInt]
    simp
  · rw [if_neg hq]
    by_cases h0 : (splitWs q.data).dedup = []
    · rw [dif_pos h0]
      have hnil : splitWs q.data = [] := (List.dedup_eq_nil _).mp h0
      rw [hnil]
      show Except.ok ((Q.ofInt 0).toRat) = _
      rw [Q.toRat_ofInt]
      simp
    · rw [dif_neg h0]
      show Except.ok ((Q.ratio _ _ (List.length_pos.mpr h0)).toRat) = _
      rw [Q.toRat_ratio]
      congr 1
      have hnodup : ((splitWs q.data).dedup.filter
          (fun w => w ∈ splitWs (lcList text.data))).Nodup :=
        List.Nodup.filter _ (List.nodup_dedup _)
      have hcnt : ((splitWs q.data).dedup.filter
            (fun w => w ∈ splitWs (lcList text.data))).length =
          ((splitWs q.data).toFinset ∩ (splitWs (lcList text.data)).toFinset).card := by
        rw [← List.toFinset_card_of_nodup hnodup, List.toFinset_filter,
          toFinset_dedup_eq]
        congr 1
        rw [← Finset.filter_mem_eq_inter]
        refine Finset.filter_congr ?_
        intro x hx
        simp [List.mem_toFinset]
      have hlen : ((splitWs q.data).dedup).length = (splitWs q.data).toFinset.card := by
        rw [List.card_toFinset]
      rw [hcnt, hlen]

/-- Value of _score on a computed similarity. -/
theorem scoreNode_ok (uq : Option String) (sim : Q) (n : Node) (text : String)
    (h : querySim uq text = .ok sim) :
    scoreNode uq n text =
      .ok ((((wPRICE.mul (Q.ofInt (if looksLikePrice text n then 1 else 0))).add
          (wQUERY.mul sim)).add
        (wDENS.mul (if hz : (encodeContents n).length = 0 then Q.ofInt 0
          else Q.ratio text.length ((encodeContents n).length)
            (Nat.pos_of_ne_zero hz)))).add
        (wTAG.mul (tagWeight (tagOf n)))) := by
  rw [scoreNode, h]

/-- Density guard of the source equals plain rational division, division
by zero being zero in the rationals. -/
theorem dens_toRat (n : Nat) (tl : Nat) :
    (if h : tl = 0 then Q.ofInt 0
      else Q.ratio n tl (Nat.pos_of_ne_zero h)).toRat = (n : ℚ) / (tl : ℚ) := by
  by_cases h : tl = 0
  · subst h
    rw [dif_pos rfl, Q.toRat_ofInt]
    norm_num
  · rw [dif_neg h, Q.toRat_ratio]

/-- Rational value of the score the source computes, written as the spec
formula with the density denominator the serialized contents. -/
theorem scoreNode_toRat (q : String) (n : Node) (text : String) :
    (scoreNode (some q) n text).map Q.toRat =
      .ok (wPRICE.toRat * (if looksLikePrice text n then 1 else 0) +
        wQUERY.toRat * querySimSpec (some q) text +
        wDENS.toRat * ((text.length : ℚ) / (((encodeContents n).length : ℚ))) +
        wTAG.toRat * (tagWeight (tagOf n)).toRat) := by
  cases hqs : querySim (some q) text with
  | error pe =>
    have hmap := querySim_toRat q text
    rw [hqs] at hmap
    cases hmap
  | ok sim =>
    have hmap := querySim_toRat q text
    rw [hqs] at hmap
    injection hmap with hsim2
    rw [scoreNode_ok (some q) sim n text hqs]
    show Except.ok (Q.toRat _) = _
    rw [Q.toRat_add, Q.toRat_add, Q.toRat_add, Q.toRat_mul, Q.toRat_mul,
      Q.toRat_mul, Q.toRat_mul, hsim2, dens_toRat]
    by_cases hp : looksLikePrice text n = true
    · rw [if_pos hp, if_pos hp, Q.toRat_ofInt]
      norm_num
    · rw [if_neg hp, if_neg hp, Q.toRat_ofInt]
      norm_num

/-- Deduplication never invents entries: the output is a sublist of the
input, so order and first occurrences are preserved. -/
theorem dedupFirst_sublist (seen : List String) (l : List String) :
    (dedupFirst seen l).Sublist l := by
  induction l generalizing seen with
  | nil => simp [dedupFirst]
  | cons h t ih =>
    rw [dedupFirst]
    by_cases hm : h ∈ seen
    · rw [if_pos hm]; exact (ih seen).cons h
    · rw [if_neg hm]; exact (ih (h :: seen)).cons₂ h

/-- Deduplication output avoids everything already seen. -/
theorem dedupFirst_not_mem_seen (seen l : List String) (x : String)
    (hx : x ∈ dedupFirst seen l) : x ∉ seen := by
  induction l generalizing seen with
  | nil => simp [dedupFirst] at hx
  | cons h t ih =>
    rw [dedupFirst] at hx
    by_cases hm : h ∈ seen
    · rw [if_pos hm] at hx; exact ih seen hx
    · rw [if_neg hm] at hx
      rcases List.mem_cons.mp hx with rfl | hx2
      · exact hm
      · intro hs
        exact ih (h :: seen) hx2 (List.mem_cons_of_mem _ hs)

/-- Deduplication output holds no duplicates. -/
theorem dedupFirst_nodup (seen l : List String) : (dedupFirst seen l).Nodup := by
  induction l generalizing seen with
  | nil => simp [dedupFirst]
  | cons h t ih =>
    rw [dedupFirst]
    by_cases hm : h ∈ seen
    · rw [if_pos hm]; exact ih seen
    · rw [if_neg hm]
      refine List.nodup_cons.mpr ⟨?_, ih (h :: seen)⟩
      intro hmem
      exact dedupFirst_not_mem_seen _ _ _ hmem (List.mem_cons_self h _)

/-- Loop invariant of the selection: an entry is only appended after
_covered_by_accepted rejected containment of its candidate node range in
every previously recorded block range. -/
theorem selLoop_pairwise (cfg : Config) :
    ∀ (cands : List Cand) (st st2 : SelSt),
      st.accepted.Pairwise
        (fun a b => containsRange a.blockRange b.nodeRange = false) →
      selLoop cfg cands st = .ok st2 →
      st2.accepted.Pairwise
        (fun a b => containsRange a.blockRange b.nodeRange = false) := by
  intro cands
  induction cands with
  | nil =>
    intro st st2 hp h
    rw [selLoop] at h
    cases h
    exact hp
  | cons c rest ih =>
    intro st st2 hp h
    rw [selLoop] at h
    split at h
    · exact ih st st2 hp h
    · split at h
      · cases h
      · split at h
        · cases h; exact hp
        · split at h
          · exact ih st st2 hp h
          · rename_i node anc hchain k hk hlen hcov
            refine ih _ st2 ?_ h
            refine List.pairwise_append.mpr ⟨hp, List.pairwise_singleton _ _, ?_⟩
            intro a ha b hb
            rcases List.mem_singleton.mp hb with rfl
            rw [coveredByAccepted] at hcov
            have hall := List.any_eq_false.mp (Bool.eq_false_iff.mpr hcov)
            have := hall a.blockRange (List.mem_map_of_mem AcceptEntry.blockRange ha)
            simpa using this

/-- Loop invariant of the selection: the accepted list never grows past
keep_top_n. -/
theorem selLoop_length (cfg : Config) :
    ∀ (cands : List Cand) (st st2 : SelSt) (k : Nat),
      cfg.keep_top_n = some k →
      st.accepted.length ≤ k →
      selLoop cfg cands st = .ok st2 →
      st2.accepted.length ≤ k := by
  intro cands
  induction cands with
  | nil =>
    intro st st2 k hk hlen h
    rw [selLoop] at h
    cases h
    exact hlen
  | cons c rest ih =>
    intro st st2 k hk hlen h
    rw [selLoop] at h
    split at h
    · exact ih st st2 k hk hlen h
    · rename_i node anc heq
      split at h
      · rename_i hk2
        rw [hk] at hk2
        cases hk2
      · rename_i k2 hk2
        rw [hk] at hk2
        injection hk2 with e
        subst e
        by_cases hle : k ≤ st.accepted.length
        · rw [if_pos hle] at h
          cases h
          exact hlen
        · rw [if_neg hle] at h
          by_cases hcov :
              coveredByAccepted node (st.accepted.map AcceptEntry.blockRange) = true
          · rw [if_pos hcov] at h
            exact ih st st2 k hk hlen h
          · rw [if_neg hcov] at h
            refine ih _ st2 k hk ?_ h
            have hlt : st.accepted.length < k := Nat.lt_of_not_le hle
            simpa using hlt

/-- Score of the walk raises at once when user_query was never
assigned. -/
theorem scoreNode_none (n : Node) (text : String) :
    scoreNode none n text = .error .attributeError := rfl

mutual
/-- Characterization of the candidate walk when user_query is missing:
AttributeError exactly when some visited element is eligible, nothing
collected otherwise. -/
theorem collectN_noquery (cfg : Config) (hq : cfg.user_query = none) :
    ∀ (n : Node) (o : Nat),
      collectN cfg n o =
        if (allElems n).any (eligible cfg) then Except.error PyErr.attributeError
        else Except.ok ([], o)
  | .text _, o => by
    simp [collectN, allElems]
  | .elem e t a sl cs, o => by
    have hcs := collectL_noquery cfg hq cs
    rw [collectN]
    by_cases he : eligible cfg (Node.elem e t a sl cs) = true
    · rw [if_pos he, hq, scoreNode_none]
      simp [allElems, he]
    · rw [if_neg he, hcs o]
      have he2 : eligible cfg (Node.elem e t a sl cs) = false :=
        Bool.eq_false_iff.mpr he
      simp [allElems, he2]
/-- List version of collectN_noquery. -/
theorem collectL_noquery (cfg : Config) (hq : cfg.user_query = none) :
    ∀ (l : NodeList) (o : Nat),
      collectL cfg l o =
        if (allElemsL l).any (eligible cfg) then Except.error PyErr.attributeError
        else Except.ok ([], o)
  | .nil, o => by
    simp [collectL, allElemsL]
  | .cons h tl, o => by
    have hh := collectN_noquery cfg hq h
    have ht := collectL_noquery cfg hq tl
    rw [collectL, hh o]
    by_cases ha : (allElems h).any (eligible cfg) = true
    · rw [if_pos ha]
      simp [allElemsL, ha]
    · have ha2 : (allElems h).any (eligible cfg) = false := Bool.eq_false_iff.mpr ha
      rw [if_neg ha]
      show (match collectL cfg tl o with
          | Except.error pe => Except.error pe
          | Except.ok (c2, o2) => Except.ok (([] : List Cand) ++ c2, o2)) =
        if (allElemsL (NodeList.cons h tl)).any (eligible cfg) = true then
          Except.error PyErr.attributeError
        else Except.ok ([], o)
      rw [ht o]
      by_cases hb : (allElemsL tl).any (eligible cfg) = true
      · rw [if_pos hb]
        simp [allElemsL, hb]
      · have hb2 := Bool.eq_false_iff.mpr hb
        rw [if_neg hb]
        simp [allElemsL, ha2, hb2]
end

mutual
/-- Characterization of the candidate walk when no visited element is
eligible: nothing is collected and the order counter is unchanged. -/
theorem collectN_noelig (cfg : Config) :
    ∀ (n : Node) (o : Nat), (allElems n).any (eligible cfg) = false →
      collectN cfg n o = Except.ok ([], o)
  | .text _, o => by
    intro _
    simp [collectN]
  | .elem e t a sl cs, o => by
    intro hfalse
    have hparts := List.any_eq_false.mp hfalse
    have he : eligible cfg (Node.elem e t a sl cs) = false := by
      have := hparts (Node.elem e t a sl cs) (by simp [allElems])
      simpa using this
    have hcs : (allElemsL cs).any (eligible cfg) = false := by
      refine List.any_eq_false.mpr ?_
      intro x hx
      exact hparts x (by simp [allElems, hx])
    rw [collectN, if_neg (by simp [he])]
    exact collectL_noelig cfg cs o hcs
/-- List version of collectN_noelig. -/
theorem collectL_noelig (cfg : Config) :
    ∀ (l : NodeList) (o : Nat), (allElemsL l).any (eligible cfg) = false →
      collectL cfg l o = Except.ok ([], o)
  | .nil, o => by
    intro _
    simp [collectL]
  | .cons h tl, o => by
    intro hfalse
    have hsplit : (allElems h).any (eligible cfg) = false ∧
        (allElemsL tl).any (eligible cfg) = false := by
      constructor
      · refine List.any_eq_false.mpr ?_
        intro x hx
        exact List.any_eq_false.mp hfalse x (by simp [allElemsL, hx])
      · refine List.any_eq_false.mpr ?_
        intro x hx
        exact List.any_eq_false.mp hfalse x (by simp [allElemsL, hx])
    rw [collectL, collectN_noelig cfg h o hsplit.1]
    show (match collectL cfg tl o with
        | Except.error pe => Except.error pe
        | Except.ok (c2, o2) => Except.ok (([] : List Cand) ++ c2, o2)) =
      Except.ok ([], o)
    rw [collectL_noelig cfg tl o hsplit.2]
    rfl
end

/-- Collection over the body when user_query is missing: AttributeError
exactly when some descendant is eligible. -/
theorem collect_noquery (cfg : Config) (hq : cfg.user_query = none)
    (body : Node) :
    collect cfg body =
      if (descendants body).any (eligible cfg) then
        Except.error PyErr.attributeError
      else Except.ok [] := by
  cases body with
  | text s => simp [collect, descendants]
  | elem e t a sl cs =>
    rw [collect, collectL_noquery cfg hq cs 0]
    by_cases ha : (allElemsL cs).any (eligible cfg) = true
    · rw [if_pos ha]
      simp [descendants, ha]
    · have ha2 := Bool.eq_false_iff.mpr ha
      rw [if_neg ha]
      simp [descendants, ha2]

/-- Collection over the body when no descendant is eligible: the empty
candidate list, whatever the configuration. -/
theorem collect_noelig (cfg : Config) (body : Node)
    (h : (descendants body).any (eligible cfg) = false) :
    collect cfg body = Except.ok [] := by
  cases body with
  | text s => simp [collect]
  | elem e t a sl cs =>
    rw [collect, collectL_noelig cfg cs 0 (by simpa [descendants] using h)]

mutual
/-- Candidate collection never reads retention_threshold. -/
theorem collectN_setRet (cfg : Config) (q : ℚ) :
    ∀ (n : Node) (o : Nat), collectN (setRet cfg q) n o = collectN cfg n o
  | .text _, o => rfl
  | .elem e t a sl cs, o => by
    have hcs := collectL_setRet cfg q cs
    have he : eligible (setRet cfg q) (Node.elem e t a sl cs) =
        eligible cfg (Node.elem e t a sl cs) := rfl
    have hsq : (setRet cfg q).user_query = cfg.user_query := rfl
    simp only [collectN, hcs, he, hsq]
/-- List version of collectN_setRet. -/
theorem collectL_setRet (cfg : Config) (q : ℚ) :
    ∀ (l : NodeList) (o : Nat), collectL (setRet cfg q) l o = collectL cfg l o
  | .nil, o => rfl
  | .cons h tl, o => by
    have hh := collectN_setRet cfg q h
    have ht := collectL_setRet cfg q tl
    simp only [collectL, hh, ht]
end

/-- Collection over the body never reads retention_threshold. -/
theorem collect_setRet (cfg : Config) (q : ℚ) (body : Node) :
    collect (setRet cfg q) body = collect cfg body := by
  cases body with
  | text s => rfl
  | elem e t a sl cs => simp only [collect, collectL_setRet cfg q cs]

/-- Selection never reads retention_threshold. -/
theorem selLoop_setRet (cfg : Config) (q : ℚ) :
    ∀ (cands : List Cand) (st : SelSt),
      selLoop (setRet cfg q) cands st = selLoop cfg cands st := by
  intro cands
  induction cands with
  | nil => intro st; rfl
  | cons c rest ih =>
    intro st
    have hk : (setRet cfg q).keep_top_n = cfg.keep_top_n := rfl
    have hm : (setRet cfg q).max_chars = cfg.max_chars := rfl
    simp only [selLoop, hk, hm, ih]

/-- Whole run never reads retention_threshold. -/
theorem filterTree_setRet (cfg : Config) (q : ℚ) (body : Node) :
    filterTree (setRet cfg q) body = filterTree cfg body := by
  simp only [filterTree, collect_setRet, selLoop_setRet]

/-- Promo pruning keeps the root element untouched: same identity, tag,
attributes and sourceline. -/
theorem prunePromo_root (n : Node) :
    eidOf (prunePromo n) = eidOf n ∧ tagOf (prunePromo n) = tagOf n ∧
      attrsOf (prunePromo n) = attrsOf n ∧ slOf (prunePromo n) = slOf n := by
  cases n <;> exact ⟨rfl, rfl, rfl, rfl⟩

mutual
/-- Promo pruning only removes elements: every element identity of the
pruned subtree already occurs in the original subtree. -/
theorem elemIds_prunePromo : ∀ (n : Node), elemIds (prunePromo n) ⊆ elemIds n
  | .text _ => by simp [prunePromo, elemIds]
  | .elem e t a sl cs => by
    simp only [prunePromo, elemIds]
    exact List.cons_subset_cons e (elemIds_prunePromoL cs)
/-- List version of elemIds_prunePromo. -/
theorem elemIds_prunePromoL : ∀ (l : NodeList), elemIdsL (prunePromoL l) ⊆ elemIdsL l
  | .nil => by simp [prunePromoL, elemIdsL]
  | .cons h tl => by
    cases h with
    | text s =>
      simp only [prunePromoL, elemIdsL, elemIds]
      exact (elemIds_prunePromoL tl).trans (List.subset_append_right _ _)
    | elem e t a sl cs =>
      by_cases hp : isPromo (Node.elem e t a sl cs) = true
      · simp only [prunePromoL, hp, if_true]
        exact (elemIds_prunePromoL tl).trans (List.subset_append_right _ _)
      · have hp2 : isPromo (Node.elem e t a sl cs) = false := Bool.eq_false_iff.mpr hp
        simp only [prunePromoL, hp2, Bool.false_eq_true, if_false, elemIdsL]
        exact List.append_subset.mpr
          ⟨(elemIds_prunePromo (Node.elem e t a sl cs)).trans
              (List.subset_append_left _ _),
            (elemIds_prunePromoL tl).trans (List.subset_append_right _ _)⟩
end

mutual
/-- A chain found by chainTo consists of subtrees of the searched tree:
all their element identities occur in it. -/
theorem chainTo_subset (i : Nat) :
    ∀ (t : Node) (node : Node) (anc : List Node),
      chainTo i t = some (node, anc) →
      ∀ m ∈ node :: anc, elemIds m ⊆ elemIds t
  | .text _, node, anc => by
    intro h
    simp [chainTo] at h
  | .elem e tg a sl cs, node, anc => by
    intro h m hm
    rw [chainTo] at h
    by_cases he : e = i
    · rw [if_pos he] at h
      injection h with h2
      injection h2 with hn ha
      subst hn
      subst ha
      rcases List.mem_cons.mp hm with rfl | hfalse
      · exact fun x hx => hx
      · cases hfalse
    · rw [if_neg he] at h
      cases hL : chainToL i cs with
      | none => rw [hL] at h; cases h
      | some pr =>
        rw [hL] at h
        obtain ⟨nod2, anc2⟩ := pr
        injection h with h2
        injection h2 with hn ha
        subst hn
        subst ha
        rcases List.mem_cons.mp hm with rfl | hin
        · have hsub := chainToL_subset i cs m anc2 hL m (List.mem_cons_self _ _)
          intro x hx
          exact List.mem_cons_of_mem e (hsub hx)
        · rcases List.mem_append.mp hin with hin2 | hin2
          · have hsub := chainToL_subset i cs nod2 anc2 hL m (List.mem_cons_of_mem _ hin2)
            intro x hx
            exact List.mem_cons_of_mem e (hsub hx)
          · rcases List.mem_singleton.mp hin2 with rfl
            exact fun x hx => hx
/-- List version of chainTo_subset. -/
theorem chainToL_subset (i : Nat) :
    ∀ (l : NodeList) (node : Node) (anc : List Node),
      chainToL i l = some (node, anc) →
      ∀ m ∈ node :: anc, elemIds m ⊆ elemIdsL l
  | .nil, node, anc => by
    intro h
    simp [chainToL] at h
  | .cons h tl, node, anc => by
    intro hL m hm
    rw [chainToL] at hL
    cases hh : chainTo i h with
    | some pr =>
      rw [hh] at hL
      injection hL with h2
      subst h2
      exact (chainTo_subset i h node anc hh m hm).trans (List.subset_append_left _ _)
    | none =>
      rw [hh] at hL
      exact (chainToL_subset i tl node anc hL m hm).trans
        (List.subset_append_right _ _)
end

/-- The climb of the compactor stays on the chain: it returns the starting
node or one of its ancestors. -/
theorem cropClimb_mem (mc : Nat) :
    ∀ (cur : Node) (anc : List Node), cropClimb mc cur anc ∈ cur :: anc
  | cur, [] => by simp [cropClimb]
  | cur, p :: rest => by
    rw [cropClimb]
    by_cases h1 : tagOf p = "body"
    · rw [if_pos h1]; exact List.mem_cons_self _ _
    · rw [if_neg h1]
      by_cases h2 : mc < (getText p).length
      · rw [if_pos h2]; exact List.mem_cons_self _ _
      · rw [if_neg h2]
        by_cases h3 : looksLikePrice (getText p) p = true
        · rw [if_neg (by simp [h3])]
          have := cropClimb_mem mc p rest
          exact List.mem_cons_of_mem _ this
        · rw [if_pos (by simp [Bool.eq_false_iff.mpr h3])]
          exact List.mem_cons_self _ _

/-- The climb keeps exactly the last node of the maximal chain prefix all
of whose members satisfy the loop condition: it climbs only while the
condition holds and stops at the first violating ancestor. -/
theorem cropClimb_takeWhile (mc : Nat) :
    ∀ (cur : Node) (anc : List Node),
      cropClimb mc cur anc = (anc.takeWhile (climbOk mc)).getLastD cur
  | cur, [] => by simp [cropClimb]
  | cur, p :: rest => by
    rw [cropClimb, List.takeWhile_cons]
    by_cases h1 : tagOf p = "body"
    · rw [if_pos h1]
      have : climbOk mc p = false := by simp [climbOk, h1]
      rw [this]
      rfl
    · rw [if_neg h1]
      by_cases h2 : mc < (getText p).length
      · rw [if_pos h2]
        have : climbOk mc p = false := by simp [climbOk, h2]
        rw [this]
        rfl
      · rw [if_neg h2]
        by_cases h3 : looksLikePrice (getText p) p = true
        · rw [if_neg (by simp [h3])]
          have hc : climbOk mc p = true := by simp [climbOk, h1, h2, h3]
          rw [hc]
          simp only [if_true]
          rw [cropClimb_takeWhile mc p rest, List.getLastD_cons]
        · rw [if_pos (by simp [Bool.eq_false_iff.mpr h3])]
          have hfc : climbOk mc p = false := by
            simp [climbOk, Bool.eq_false_iff.mpr h3]
          rw [hfc]
          rfl

/-- Deduplication drops only repetitions: every input string already seen
or kept. -/
theorem mem_dedupFirst (seen l : List String) (x : String) (hx : x ∈ l) :
    x ∈ seen ∨ x ∈ dedupFirst seen l := by
  induction l generalizing seen with
  | nil => cases hx
  | cons h t ih =>
    rw [dedupFirst]
    rcases List.mem_cons.mp hx with rfl | hx2
    · by_cases hm : x ∈ seen
      · left; exact hm
      · right; rw [if_neg hm]; exact List.mem_cons_self _ _
    · by_cases hm : h ∈ seen
      · rw [if_pos hm]; exact ih seen hx2
      · rw [if_neg hm]
        rcases ih (h :: seen) hx2 with hs | hd
        · rcases List.mem_cons.mp hs with rfl | hs2
          · right; exact List.mem_cons_self _ _
          · left; exact hs2
        · right; exact List.mem_cons_of_mem _ hd

/-- C1 counterexample: one invocation of filter_content on bodyC1 returns
two Cards whose engine computed SourceRanges are (5, 6) and (1, 9); the
second fully contains the first, refuting the claimed no containment
invariant on the returned result. -/
theorem c1_counterexample :
    (filterTree cfgStd bodyC1).map
        (fun o => o.entries.map AcceptEntry.blockRange) = .ok [(5, 6), (1, 9)] ∧
      (filterTree cfgStd bodyC1).map (fun o => o.result.length) = .ok 2 ∧
      containsRange (1, 9) (5, 6) = true := by
  refine ⟨by decide, by decide, by decide⟩

/-- C1 (amended): the selection guarantees only that when a candidate is
accepted, the source range of its candidate node at that moment is not
fully contained in any block range recorded earlier; the recorded block
ranges of two accepted Cards may nest, since the containment test runs
before compaction and only in one direction. -/
theorem c1_amended_no_containment (cfg : Config) (body : Node) :
    (runEntries cfg body).Pairwise
      (fun a b => containsRange a.blockRange b.nodeRange = false) := by
  rw [runEntries]
  cases hft : filterTree cfg body with
  | error pe => simp
  | ok out =>
    show (out.entries).Pairwise
      (fun a b => containsRange a.blockRange b.nodeRange = false)
    rcases filterTree_cases cfg body out hft with
      ⟨he, _, _⟩ | ⟨cands, st, nodes, _, hsel, _, he, _, _⟩
    · rw [he]; simp
    · rw [he]
      exact selLoop_pairwise cfg _ ⟨body, []⟩ st (by simp) hsel

/-- Helper of the compactor claim: with max_chars 50 and an immediate
parent whose normalized text is 200 characters long, the climb keeps the
candidate itself. -/
theorem cropClimb_200 (cur p : Node) (rest : List Node)
    (h200 : (getText p).length = 200) : cropClimb 50 cur (p :: rest) = cur := by
  rw [cropClimb]
  by_cases h1 : tagOf p = "body"
  · rw [if_pos h1]
  · rw [if_neg h1, if_pos (by rw [h200]; norm_num)]

/-- C2: the compactor climbs from the candidate only while the parent is
not the tree root (the body), its normalized text length is within the
configured max size, and it still exhibits a price like signal; it stops
at the first violating ancestor and keeps the last valid node (takeWhile
keeps exactly the maximal satisfying prefix); and with max_chars 50 and a
candidate whose immediate parent has 200 characters of normalized text,
compact returns the pruned subtree rooted at the original candidate and
never climbs past it. -/
theorem c2_compactor_climb :
    (∀ (mc : Nat) (cur : Node) (anc : List Node),
        cropClimb mc cur anc = (anc.takeWhile (climbOk mc)).getLastD cur) ∧
      (∀ (cur p : Node) (rest : List Node), (getText p).length = 200 →
        cropClimb 50 cur (p :: rest) = cur) ∧
      (∀ (tree cur p : Node) (rest : List Node) (i : Nat),
        chainTo i tree = some (cur, p :: rest) → (getText p).length = 200 →
        cropToPriceCard 50 tree i =
          some (prunePromo cur, replaceById (eidOf cur) (prunePromo cur) tree)) := by
  refine ⟨cropClimb_takeWhile, cropClimb_200, ?_⟩
  intro tree cur p rest i hchain h200
  rw [cropToPriceCard, hchain]
  show some (prunePromo (cropClimb 50 cur (p :: rest)),
      replaceById (eidOf (cropClimb 50 cur (p :: rest)))
        (prunePromo (cropClimb 50 cur (p :: rest))) tree) = _
  rw [cropClimb_200 cur p rest h200]

set_option maxRecDepth 4000 in
/-- Witness of the compactor claim at a concrete 200 character parent. -/
theorem c2_compactor_climb_witness :
    (getText pW).length = 200 ∧
      cropClimb 50 nodeW [pW, treeW] = nodeW ∧
      cropToPriceCard 50 treeW 12 =
        some (prunePromo nodeW,
          replaceById (eidOf nodeW) (prunePromo nodeW) treeW) :=
  ⟨by decide, c2_compactor_climb.2.1 nodeW pW [treeW] (by decide),
    c2_compactor_climb.2.2 treeW nodeW pW [treeW] 12 (by decide) (by decide)⟩

/-- Fragments of a run are the first kept occurrences of the serialized
reordered blocks. -/
theorem runResult_eq (cfg : Config) (body : Node) :
    runResult cfg body = dedupFirst [] ((runNodes cfg body).map strOf) := by
  rw [runResult, runNodes]
  cases hft : filterTree cfg body with
  | error pe => rfl
  | ok out =>
    show out.result = dedupFirst []
      ((match lookupAll out.finalTree out.entries with
        | Except.error _ => []
        | Except.ok nodes => List.insertionSort nodeLE nodes).map strOf)
    rcases filterTree_cases cfg body out hft with
      ⟨he, htr, hres⟩ | ⟨cands, st, nodes, _, _, hlk, he, htr, hres⟩
    · rw [hres, he, htr]
      rfl
    · rw [hres, he, htr, hlk]

/-- C3: the run sorts candidates by descending score with document order
breaking ties (a permutation of the collected candidates), greedily
accepts at most keep_top_n, reorders the accepted Cards by ascending
sourceline, serializes them, and drops byte identical strings with the
first occurrence winning: the result is duplicate free, a sublist of the
serialized reordered blocks, and covers each serialized block. -/
theorem c3_sort_select_dedup (cfg : Config) (body : Node) :
    ((sortedCands cfg body).Pairwise (fun a b =>
        b.score.toRat < a.score.toRat ∨
          (a.score.toRat = b.score.toRat ∧ a.ord ≤ b.ord)) ∧
      (sortedCands cfg body).Perm (collectOk cfg body)) ∧
      (∀ k, cfg.keep_top_n = some k → (runEntries cfg body).length ≤ k) ∧
      ((runNodes cfg body).Pairwise (fun a b => slOf a ≤ slOf b) ∧
        runResult cfg body = dedupFirst [] ((runNodes cfg body).map strOf) ∧
        (runResult cfg body).Nodup ∧
        (runResult cfg body).Sublist ((runNodes cfg body).map strOf) ∧
        ∀ s ∈ (runNodes cfg body).map strOf, s ∈ runResult cfg body) := by
  refine ⟨⟨?_, List.perm_insertionSort candLE _⟩, ?_, ?_, runResult_eq cfg body, ?_, ?_, ?_⟩
  · have hs := List.sorted_insertionSort candLE (collectOk cfg body)
    exact hs.imp (fun hab => (candLE_iff _ _).mp hab)
  · intro k hk
    rw [runEntries]
    cases hft : filterTree cfg body with
    | error pe => simp
    | ok out =>
      show (out.entries).length ≤ k
      rcases filterTree_cases cfg body out hft with
        ⟨he, _, _⟩ | ⟨cands, st, nodes, _, hsel, _, he, _, _⟩
      · rw [he]; simp
      · rw [he]
        exact selLoop_length cfg _ ⟨body, []⟩ st k hk (by simp) hsel
  · rw [runNodes]
    cases hft : filterTree cfg body with
    | error pe => simp
    | ok out =>
      show (match lookupAll out.finalTree out.entries with
        | Except.error _ => []
        | Except.ok nodes => List.insertionSort nodeLE nodes).Pairwise
          (fun a b => slOf a ≤ slOf b)
      cases hlk : lookupAll out.finalTree out.entries with
      | error pe => simp
      | ok nodes =>
        have hs := List.sorted_insertionSort nodeLE nodes
        exact hs.imp (fun hab => hab)
  · rw [runResult_eq cfg body]
    exact dedupFirst_nodup _ _
  · rw [runResult_eq cfg body]
    exact dedupFirst_sublist _ _
  · intro str hstr
    rw [runResult_eq cfg body]
    rcases mem_dedupFirst [] _ str hstr with hfalse | hmem
    · cases hfalse
    · exact hmem

/-- Witness of the sort and select claim at a concrete run: keep_top_n of
cfgStd is assigned and the cap holds on bodyC1. -/
theorem c3_witness :
    cfgStd.keep_top_n = some 2 ∧ (runEntries cfgStd bodyC1).length ≤ 2 :=
  ⟨rfl, (c3_sort_select_dedup cfgStd bodyC1).2.1 2 rfl⟩

/-- C4 counterexample: a nav element whose text is the site chrome word
home satisfies the claimed classifier (structural tag signal, and home in
the textual vocabulary) but _is_promo rejects it: the code never inspects
tag names and its textual vocabulary has no site chrome words. -/
theorem c4_counterexample :
    isPromo navHome = false ∧ isJunkSpec navHome = true :=
  ⟨by decide, by decide⟩

/-- C4 (amended): is_junk holds exactly when the class and id text matches
the fixed class and id vocabulary (nav, footer, header, sidebar, ad, ads,
banner, coupon, newsletter, promo, upsell, social, share, review,
shipping, clearance) as a substring, or the first 120 characters of the
normalized text contain a whole word match of the promotional vocabulary
(sale, discount, percent off, save with a digit, free shipping); the tag
name never participates. -/
theorem c4_amended_junk_classifier :
    (∀ (e : Nat) (t1 t2 : String) (a : List (String × String)) (sl : Nat)
        (cs : NodeList),
        isPromo (Node.elem e t1 a sl cs) = isPromo (Node.elem e t2 a sl cs)) ∧
      ∀ (n : Node),
        isPromo n =
          (negClassIdLits.any
              (fun w => containsSub w (lcList (classIdOf n).data)) ||
            negTextSearch ⟨(getTextC n).take 120⟩) := by
  refine ⟨fun e t1 t2 a sl cs => rfl, fun n => ?_⟩
  rw [isPromo, negClassIdSearch, reSearchLits_eq_any]

/-- C5 counterexample: on a heading with text ab the score the code
computes is 1.02 (density denominator encode_contents, two characters)
while the claimed formula with the serialized element as denominator
(eleven characters) yields 291 over 550. -/
theorem c5_counterexample :
    (scoreNode (some "") h1ab (getText h1ab)).map Q.toRat = .ok (51 / 50) ∧
      scoreSpecOuter (some "") h1ab (getText h1ab) = 291 / 550 ∧
      (51 / 50 : ℚ) ≠ 291 / 550 := by
  refine ⟨?_, ?_, by norm_num⟩
  · have h : scoreNode (some "") h1ab (getText h1ab) =
        .ok (⟨204000, 200000, by norm_num⟩ : Q) := by decide
    rw [h]
    show Except.ok (Q.toRat _) = _
    rw [Q.toRat]
    norm_num
  · have hp : looksLikePrice (getText h1ab) h1ab = false := by decide
    have hq : querySimSpec (some "") (getText h1ab) = 0 := by
      rw [querySimSpec]
      have h0 : splitWs ("" : String).data = ([] : List (List Char)) := by decide
      rw [h0]
      simp
    rw [scoreSpecOuter, hp, hq]
    rw [show (strOf h1ab).length = 11 from by decide,
      show (getText h1ab).length = 2 from by decide,
      show tagOf h1ab = "h1" from rfl,
      show tagWeight "h1" = Q.ofTenths 14 from by decide]
    norm_num [wPRICE, wQUERY, wDENS, wTAG, Q.ofTenths, Q.toRat]

/-- C5 (amended): for every eligible scored element the score equals the
claimed weighted sum, with query_similarity the claimed fraction over the
distinct token sets and the density denominator the length of the
serialized contents of the element (encode_contents, the element tags
excluded), division by zero being zero. -/
theorem c5_amended_score_formula (q : String) (n : Node) :
    (scoreNode (some q) n (getText n)).map Q.toRat =
      .ok (wPRICE.toRat * (if looksLikePrice (getText n) n then 1 else 0) +
        wQUERY.toRat * querySimSpec (some q) (getText n) +
        wDENS.toRat *
          (((getText n).length : ℚ) / (((encodeContents n).length : ℚ))) +
        wTAG.toRat * (tagWeight (tagOf n)).toRat) :=
  scoreNode_toRat q n (getText n)

/-- C6 counterexample: on treeC6 the compactor returns a card while the
source tree itself has changed (the promo child is decomposed from it),
the card is still reachable at its original position inside the post call
tree, and its parent link is intact: the card is the original in tree
subtree, not a clone with discarded parent links. -/
theorem c6_counterexample :
    cropToPriceCard 800 treeC6 1 = some (cardC6, tree2C6) ∧
      tree2C6 ≠ treeC6 ∧
      findById 1 tree2C6 = some cardC6 ∧
      parentEid tree2C6 1 = some 0 :=
  ⟨by decide, by decide, by decide, by decide⟩

/-- C6 (amended): the Card is the pruned original in tree subtree: the
compactor replaces the block inside the shared tree by its pruned form
(in place mutation), the root of the card keeps the identity, tag and
attributes of the block, and every element of the card is an element of
the pre call source tree (shared identity, no clone). -/
theorem c6_amended_in_place (mc : Nat) (tree : Node) (i : Nat)
    (node : Node) (anc : List Node)
    (h : chainTo i tree = some (node, anc)) :
    cropToPriceCard mc tree i =
        some (prunePromo (cropClimb mc node anc),
          replaceById (eidOf (cropClimb mc node anc))
            (prunePromo (cropClimb mc node anc)) tree) ∧
      eidOf (prunePromo (cropClimb mc node anc)) =
        eidOf (cropClimb mc node anc) ∧
      tagOf (prunePromo (cropClimb mc node anc)) =
        tagOf (cropClimb mc node anc) ∧
      attrsOf (prunePromo (cropClimb mc node anc)) =
        attrsOf (cropClimb mc node anc) ∧
      elemIds (prunePromo (cropClimb mc node anc)) ⊆ elemIds tree := by
  refine ⟨?_, (prunePromo_root _).1, (prunePromo_root _).2.1,
    (prunePromo_root _).2.2.1, ?_⟩
  · rw [cropToPriceCard, h]
  · exact (elemIds_prunePromo _).trans
      (chainTo_subset i tree node anc h _ (cropClimb_mem mc node anc))

/-- Witness of the amended compactor claim on the concrete tree. -/
theorem c6_witness :
    chainTo 1 treeC6 = some (divN, [treeC6]) ∧
      cropToPriceCard 800 treeC6 1 =
        some (prunePromo (cropClimb 800 divN [treeC6]),
          replaceById (eidOf (cropClimb 800 divN [treeC6]))
            (prunePromo (cropClimb 800 divN [treeC6])) treeC6) :=
  ⟨by decide, (c6_amended_in_place 800 treeC6 1 divN [treeC6] (by decide)).1⟩

/-- C7 counterexample: on the malformed fragment with a price and an
instance fresh from __init__, filter_content raises AttributeError rather
than returning a list. -/
theorem c7_counterexample :
    filterContent (initFilter (3 / 10) 2 false) parseMal "<p>$5" =
      .error .attributeError := by decide

/-- C7 (amended): filter_content can raise (the counterexample above), so
it does not never raise; what does hold: the empty input string returns
the empty list under every configuration and parser, and every document
with zero price like signals all of whose element texts have fewer than
min_word_threshold words yields no candidate and the empty list with no
error. -/
theorem c7_amended_empty_cases :
    (∀ (cfg : Config) (parse : String → Node),
        filterContent cfg parse "" = .ok []) ∧
      ∀ (cfg : Config) (body : Node),
        (∀ e ∈ descendants body,
          looksLikePrice (getText e) e = false ∧
            wordCount (getText e) < cfg.min_word_threshold) →
        filterTree cfg body = .ok ⟨[], body, []⟩ := by
  constructor
  · intro cfg parse
    rw [filterContent, if_pos rfl]
  · intro cfg body hno
    have hany : (descendants body).any (eligible cfg) = false := by
      refine List.any_eq_false.mpr ?_
      intro e he
      cases e with
      | text s => simp [eligible]
      | elem a b c d f =>
        rcases hno _ he with ⟨hp, hw⟩
        simp [eligible, hp, decide_eq_false (Nat.not_le.mpr hw)]
    rw [filterTree, collect_noelig cfg body hany]
    rfl

/-- Witness of the amended empty case claim on concrete inputs. -/
theorem c7_witness :
    filterContent cfgStd parseMal "" = .ok [] ∧
      filterTree cfgStd bodyShort = .ok ⟨[], bodyShort, []⟩ :=
  ⟨c7_amended_empty_cases.1 cfgStd parseMal,
    c7_amended_empty_cases.2 cfgStd bodyShort (by decide)⟩

/-- C8: the retention ratio is accepted and stored by the constructor,
whose docstring promises deletion of low scoring candidates, but the run
never reads it: the output is identical under every retention value, and
on bodyC1 a retention of nine tenths still returns both candidates. -/
theorem c8_retention_unused (cfg : Config) (q : ℚ) (body : Node) :
    (initFilter q 2 false).retention_threshold = q ∧
      filterTree (setRet cfg q) body = filterTree cfg body ∧
      (filterTree (Config.mk (9 / 10) 800 2 false (some "") (some 2)) bodyC1).map
        (fun o => o.result.length) = .ok 2 :=
  ⟨rfl, filterTree_setRet cfg q body, by decide⟩

/-- C9: an instance as produced by __init__ alone has neither keep_top_n
nor user_query; every read of user_query raises, so on every document with
at least one eligible scored candidate the walk, and with it
filter_content, raises AttributeError first inside _query_sim during
scoring. -/
theorem c9_missing_attributes (r : ℚ) (m : Nat) (v : Bool) (body : Node)
    (h : (descendants body).any (eligible (initFilter r m v)) = true) :
    (initFilter r m v).keep_top_n = none ∧
      (initFilter r m v).user_query = none ∧
      (∀ text : String,
        querySim (initFilter r m v).user_query text = .error .attributeError) ∧
      collect (initFilter r m v) body = .error .attributeError ∧
      filterTree (initFilter r m v) body = .error .attributeError := by
  have hq : (initFilter r m v).user_query = none := rfl
  have hcol := collect_noquery (initFilter r m v) hq body
  rw [h] at hcol
  simp only [if_true] at hcol
  refine ⟨rfl, rfl, fun text => rfl, hcol, ?_⟩
  rw [filterTree, hcol]

/-- Witness of the missing attribute claim on the concrete price
document. -/
theorem c9_witness :
    (descendants bodyMal).any (eligible (initFilter (3 / 10) 2 false)) = true ∧
      filterTree (initFilter (3 / 10) 2 false) bodyMal =
        .error .attributeError :=
  ⟨by decide,
    (c9_missing_attributes (3 / 10) 2 false bodyMal (by decide)).2.2.2.2⟩

/-- C10: with the NLP models unavailable the constructor of
UniversalProductFilter raises RuntimeError synchronously at construction,
before any tree work (construction involves no markup), as an explicit
exception with the documented message; with the models available it
succeeds. -/
theorem c10_upf_fail_fast :
    (∀ p : UPFParams,
        upfInit false p =
          .error "NLP models are not available. Please install dependencies from requirements_nlp.txt") ∧
      ∀ p : UPFParams, upfInit true p = .ok ⟨p⟩ :=
  ⟨fun _ => rfl, fun _ => rfl⟩

end Ecom
